import Mathlib

/-!
Verification of the column-reading subsystem of `wholecell/io/tablereader.py`
(class `TableReader`).  The on-disk state of one column is embedded as a
`Column` structure (the byte list of the data file, the integer list parsed
from the offsets file, and the byte width of one element of the resolved
dtype).  File access is embedded as explicit state passing over a `Handle`
(a byte list plus a cursor position); the methods `readColumn` and
`_loadEntry` are translated statement by statement, including the Python 3
semantics of `zip` (a single-use iterator) and of negative sequence indices.
All definitions are executable so that concrete runs can be checked by the
kernel.
-/

set_option autoImplicit false

namespace Tablereader

/-- One decoded element of a numpy array: the list of its bytes
(`itemsize` many).  Bytes are modelled as natural numbers. -/
abbrev Elem := List Nat

/-- The exception classes that the translated code can raise.
`notUnzipped` and `versionError` are the classes `NotUnzippedError` and
`VersionError` defined in the module; `variableWidth` is
`VariableWidthError`; the remaining constructors stand for the Python
built-in exceptions `IndexError`, `ValueError`, `ZeroDivisionError` and
`OSError` raised by numpy or by file operations. -/
inductive Err where
  | notUnzipped
  | versionError
  | variableWidth
  | indexError
  | valueError
  | zeroDivision
  | osError
deriving DecidableEq

/-- Result of a numpy read after `squeeze()`: a 2-D array with every axis of
size one removed can be a scalar, a 1-D vector or a 2-D matrix. -/
inductive NpResult where
  | scalar : Elem → NpResult
  | vec : List Elem → NpResult
  | mat : List (List Elem) → NpResult
deriving DecidableEq

/-- `numpy.squeeze` on a 2-D array: every axis of size one is removed. -/
def squeeze2d (m : List (List Elem)) : NpResult :=
  match m with
  | [row] =>
    match row with
    | [e] => .scalar e
    | _ => .vec row
  | _ =>
    if m ≠ [] ∧ m.all (fun r => r.length = 1) then
      .vec (m.map (fun r => r.headD []))
    else
      .mat m

/-- An open binary file: its full contents and the cursor position. -/
structure Handle where
  file : List Nat
  pos : Nat
deriving DecidableEq

/-- `file.read(n)`: a negative count reads to the end of the file, a
non-negative count reads at most `n` bytes (fewer at end of file).  The
cursor advances by the number of bytes actually read. -/
def Handle.read (h : Handle) (n : Int) : List Nat × Handle :=
  let avail := h.file.length - h.pos
  let k := if n < 0 then avail else min n.toNat avail
  ((h.file.drop h.pos).take k, ⟨h.file, h.pos + k⟩)

/-- `file.seek(d, 1)`: relative seek.  Seeking before the start of the file
raises `OSError`; seeking past the end is allowed. -/
def Handle.seekRel (h : Handle) (d : Int) : Except Err Handle :=
  if (h.pos : Int) + d < 0 then .error .osError
  else .ok ⟨h.file, ((h.pos : Int) + d).toNat⟩

/-- The resolved on-disk state of one column, as produced by
`_loadOffsets`: the integers of the offsets file, the `itemsize` of the
numpy dtype decoded from the JSON header, and the bytes of the data file
(JSON header prefix included, so that `offsets[0]` is its length). -/
structure Column where
  offsets : List Nat
  itemsize : Nat
  file : List Nat

/-- `np.diff(offsets)`: successive differences. -/
def npDiff (l : List Nat) : List Int :=
  List.zipWith (fun a b => (b : Int) - (a : Int)) l l.tail

/-- Fuel-driven splitting of a flat list into consecutive chunks of `k`
elements (the reshape performed by `np.frombuffer` and by
`reshape(nEntries, -1)`).  The fuel argument only serves termination; it is
always instantiated with the length of the list. -/
def chunksAux {α : Type} (k : Nat) : Nat → List α → List (List α)
  | _, [] => []
  | 0, _ :: _ => []
  | fuel + 1, a :: l => (a :: l).take k :: chunksAux k fuel ((a :: l).drop k)

/-- Split a list into consecutive chunks of `k` elements. -/
def chunks {α : Type} (k : Nat) (l : List α) : List (List α) :=
  chunksAux k l.length l

/-- `np.frombuffer(bytes, dtype)` for a dtype of width `k`: fails
(`ValueError`) unless the buffer length is a multiple of the item size. -/
def frombuffer (k : Nat) (b : List Nat) : Option (List Elem) :=
  if k ≠ 0 ∧ b.length % k = 0 then some (chunks k b) else none

/-- Read one element of a numpy 1-D array at a Python index: negative
indices wrap around, anything outside `[-len, len)` raises `IndexError`. -/
def npElem (l : List Elem) (i : Int) : Except Err Elem :=
  if 0 ≤ i ∧ i < (l.length : Int) then .ok (l.getD i.toNat [])
  else if -(l.length : Int) ≤ i ∧ i < 0 then .ok (l.getD (i + l.length).toNat [])
  else .error .indexError

/-- Read one entry of the offsets array at a Python index: negative indices
wrap around, anything outside `[-len, len)` raises `IndexError`. -/
def npOffset (l : List Nat) (i : Int) : Except Err Nat :=
  if 0 ≤ i ∧ i < (l.length : Int) then .ok (l.getD i.toNat 0)
  else if -(l.length : Int) ≤ i ∧ i < 0 then .ok (l.getD (i + l.length).toNat 0)
  else .error .indexError

/-- `buffer[indices]`: numpy fancy indexing of a 1-D array by an integer
array, element by element. -/
def npSelect (buffer : List Elem) : List Int → Except Err (List Elem)
  | [] => .ok []
  | k :: ks =>
    match npElem buffer k, npSelect buffer ks with
    | .ok v, .ok vs => .ok (v :: vs)
    | .error e, _ => .error e
    | _, .error e => .error e

/-- Insert position `p` into an already sorted position list, after all
positions whose key is not larger (stable insertion). -/
def insertPos (key : Nat → Int) : List Nat → Nat → List Nat
  | [], p => [p]
  | q :: qs, p => if key p < key q then p :: q :: qs else q :: insertPos key qs p

/-- `np.argsort(indices)`: the list of positions of `indices` sorted by
value.  Ties are resolved stably; the results of `readColumn` do not depend
on the tie order because tied positions receive equal data. -/
def argsort (vals : List Int) : List Nat :=
  List.foldl (fun acc p => insertPos (fun j => vals.getD j 0) acc p) []
    (List.range vals.length)

/-- `data[i, cols] = vals`: pointwise fancy-index assignment into row `i`
of a matrix. -/
def writeRow (data : List (List Elem)) (i : Nat) (cols : List Nat)
    (vals : List Elem) : List (List Elem) :=
  data.set i (List.foldl (fun row pv => row.set pv.1 pv.2) (data.getD i [])
    (cols.zip vals))

/-- The per-entry loop of the `block_read=True` strategy of `readColumn`
(lines 201 to 205 of the source): read the contiguous span covering the
requested element positions, slice the requested positions out of the
buffer, store them at the original (unsorted) column positions, and seek to
the start of the span of the next entry. -/
def blockLoop (ts : Nat) (shifted : List Int) (sortIdx : List Nat)
    (stepSeek : Int) :
    Nat → Nat → Handle → List (List Elem) → Except Err (List (List Elem))
  | 0, _, _, data => .ok data
  | n + 1, i, h, data =>
    let rd := h.read ((shifted.getLastD 0 + 1) * (ts : Int))
    match frombuffer ts rd.1 with
    | none => .error .valueError
    | some buffer =>
      match npSelect buffer shifted with
      | .error e => .error e
      | .ok vals =>
        match rd.2.seekRel stepSeek with
        | .error e => .error e
        | .ok h2 => blockLoop ts shifted sortIdx stepSeek n (i + 1) h2
            (writeRow data i sortIdx vals)

/-- Grouping of the sorted positions into maximal runs of contiguous
elements (lines 208 to 221 of the source): walking the remaining
`(sort_index, seek)` pairs, a zero seek extends the current group, a
non-zero seek closes it.  Returns the groups, their lengths, and the seek
preceding each group after the first. -/
def groupRuns : List (Nat × Int) → List Nat →
    List (List Nat) × List Nat × List Int
  | [], current => ([current], [current.length], [])
  | (idx, seek) :: rest, current =>
    if seek = 0 then groupRuns rest (current ++ [idx])
    else
      let r := groupRuns rest [idx]
      (current :: r.1, current.length :: r.2.1, seek :: r.2.2)

/-- One pass of the inner loop of the `block_read=False` strategy (lines
226 to 230 of the source): for each `(positions, count, seek)` triple of
the read plan, seek, read `count` elements and assign them at the stored
column positions of row `i`.  A numpy fancy assignment with mismatched
lengths broadcasts a single element and otherwise raises `ValueError`. -/
def groupedInner (ts : Nat) (i : Nat) :
    List (List Nat × Nat × Int) → Handle → List (List Elem) →
    Except Err (Handle × List (List Elem))
  | [], h, data => .ok (h, data)
  | (idxg, nReads, seek) :: rest, h, data =>
    match h.seekRel seek with
    | .error e => .error e
    | .ok h1 =>
      let rd := h1.read ((nReads : Int) * (ts : Int))
      match frombuffer ts rd.1 with
      | none => .error .valueError
      | some elems =>
        if elems.length = idxg.length then
          groupedInner ts i rest rd.2 (writeRow data i idxg elems)
        else if elems.length = 1 then
          groupedInner ts i rest rd.2
            (writeRow data i idxg (List.replicate idxg.length (elems.headD [])))
        else .error .valueError

/-- The outer loop of the `block_read=False` strategy (lines 225 to 231 of
the source).  The read plan `read_info` is built with `zip`, which in
Python 3 yields a single-use iterator: the inner loop consumes it entirely
during the first outer iteration, so every later iteration receives the
exhausted iterator, modelled by recursing with the empty list. -/
def groupedOuter (ts : Nat) (lastSeek : Int) :
    Nat → Nat → List (List Nat × Nat × Int) → Handle → List (List Elem) →
    Except Err (List (List Elem))
  | 0, _, _, _, data => .ok data
  | n + 1, i, iter, h, data =>
    match groupedInner ts i iter h data with
    | .error e => .error e
    | .ok (h1, data1) =>
      match h1.seekRel lastSeek with
      | .error e => .error e
      | .ok h2 => groupedOuter ts lastSeek n (i + 1) [] h2 data1

/-- `TableReader.readColumn` (lines 161 to 233 of the source), for a column
already resolved by `_loadOffsets` (name lookup and header decoding are
upstream of this function).  `indices = none` is the full read; otherwise
the strategy flag selects between the block strategy and the grouped
strategy.  The empty-offsets `IndexError` of `offsets[0]` inside
`_loadOffsets` is surfaced here, before any other check, matching the order
of execution of the source. -/
def readColumn (col : Column) (indices : Option (List Int))
    (block_read : Bool) : Except Err NpResult :=
  match col.offsets with
  | [] => .error .indexError
  | o0 :: _ =>
    let sizes : List Int := npDiff col.offsets
    if 1 < sizes.dedup.length then .error .variableWidth
    else
      let nEntries := sizes.length
      match indices with
      | none =>
        let h : Handle := ⟨col.file, o0⟩
        match frombuffer col.itemsize (h.read (-1)).1 with
        | none => .error .valueError
        | some elems =>
          if nEntries = 0 ∨ elems.length = 0 ∨ elems.length % nEntries ≠ 0 then
            .error .valueError
          else
            .ok (squeeze2d (chunks (elems.length / nEntries) elems))
      | some idx =>
        match sizes with
        | [] => .error .indexError
        | s0 :: _ =>
          if col.itemsize = 0 then .error .zeroDivision
          else
            let ts := col.itemsize
            let nItems : Int := Int.tdiv s0 (ts : Int)
            let data0 := List.replicate nEntries
              (List.replicate idx.length (List.replicate ts 0))
            let h : Handle := ⟨col.file, o0⟩
            let sortIdx := argsort idx
            match sortIdx.map (fun p => idx.getD p 0) with
            | [] => .error .indexError
            | v0 :: vrest =>
              let sorted := v0 :: vrest
              let seeks : List Int :=
                v0 * (ts : Int) ::
                  List.zipWith (fun a b => (b - a - 1) * (ts : Int)) sorted vrest
              let lastSeek : Int := (nItems - sorted.getLastD 0 - 1) * (ts : Int)
              if block_read then
                let stepSeek := lastSeek + v0 * (ts : Int)
                let shifted := sorted.map (fun v => v - v0)
                match h.seekRel (v0 * (ts : Int)) with
                | .error e => .error e
                | .ok h1 =>
                  match blockLoop ts shifted sortIdx stepSeek nEntries 0 h1 data0 with
                  | .error e => .error e
                  | .ok data => .ok (squeeze2d data)
              else
                let r := groupRuns ((sortIdx.drop 1).zip (seeks.drop 1))
                  [sortIdx.headD 0]
                let readInfo := r.1.zip (r.2.1.zip (v0 * (ts : Int) :: r.2.2))
                match groupedOuter ts lastSeek nEntries 0 readInfo h data0 with
                | .error e => .error e
                | .ok data => .ok (squeeze2d data)

/-- `TableReader._loadEntry` (lines 253 to 262 of the source): look up
`offsets[index + 1]` and `offsets[index]` with Python index semantics, seek
to the entry start, read the difference in bytes and decode under the
cached dtype. -/
def loadEntry (col : Column) (index : Int) : Except Err (List Elem) :=
  match npOffset col.offsets (index + 1) with
  | .error e => .error e
  | .ok b =>
    match npOffset col.offsets index with
    | .error e => .error e
    | .ok a =>
      let h : Handle := ⟨col.file, a⟩
      match frombuffer col.itemsize (h.read ((b : Int) - (a : Int))).1 with
      | none => .error .valueError
      | some v => .ok v

/-- Offsets of a column whose data file holds `start` bytes of JSON header
followed by the given entries back to back: the cumulative byte positions,
`entries.length + 1` of them. -/
def mkOffsets (start : Nat) : List (List Nat) → List Nat
  | [] => [start]
  | e :: es => start :: mkOffsets (start + e.length) es

/-- A well-formed column in the on-disk layout produced by the writer: the
data file is the JSON header bytes followed by the concatenated entries,
and the offsets file records the byte boundary of every entry. -/
def mkColumn (ts : Nat) (header : List Nat) (entries : List (List Nat)) :
    Column :=
  ⟨mkOffsets header.length entries, ts, header ++ entries.flatten⟩

/-- The version check of `TableReader.__init__` (lines 77 to 93 of the
source).  `marker` is the content of the version file when it can be opened
and read, `none` when opening it raises `IOError`; `zipSiblingExists`
models `os.path.exists(versionFilePath + ".bz2")`; `expected` is
`tablewriter.VERSION`. -/
def openTableVersionCheck (marker : Option String) (zipSiblingExists : Bool)
    (expected : String) : Except Err Unit :=
  match marker with
  | none =>
    if zipSiblingExists then .error .notUnzipped else .error .versionError
  | some version =>
    if version ≠ expected then .error .versionError else .ok ()

/-- ASCII whitespace stripped by `bytes.strip()`. -/
def isPySpace (c : Char) : Bool :=
  c = ' ' || c = '\t' || c = '\n' || c = '\r' || c = '\x0b' || c = '\x0c'

/-- `line.strip()`: remove leading and trailing ASCII whitespace. -/
def pyStrip (l : List Char) : List Char :=
  ((l.dropWhile isPySpace).reverse.dropWhile isPySpace).reverse

/-- Value of a list of decimal digit characters. -/
def digitsToNat (l : List Char) : Nat :=
  l.foldl (fun acc c => acc * 10 + (c.toNat - '0'.toNat)) 0

/-- `int(line.strip())` (line 285 of the source): an optional sign followed
by decimal digits; anything else raises `ValueError`, modelled as `none`.
Digit-grouping underscores and non-ASCII digits are not modelled. -/
def parsePyInt (line : List Char) : Option Int :=
  match pyStrip line with
  | '-' :: ds =>
    if ds ≠ [] ∧ ds.all Char.isDigit then some (-(digitsToNat ds : Int)) else none
  | '+' :: ds =>
    if ds ≠ [] ∧ ds.all Char.isDigit then some ((digitsToNat ds : Int)) else none
  | ds =>
    if ds ≠ [] ∧ ds.all Char.isDigit then some ((digitsToNat ds : Int)) else none

/-- The offsets-file comprehension of `_loadOffsets` (line 285 of the
source): parse every line as an integer; the first bad line aborts the
whole read with `ValueError`.  No further validation is performed. -/
def parseOffsets : List (List Char) → Option (List Int)
  | [] => some []
  | line :: rest =>
    match parsePyInt line, parseOffsets rest with
    | some v, some vs => some (v :: vs)
    | _, _ => none

/-- The shape of a JSON-decoded type descriptor: a string or a list. -/
inductive PyVal where
  | s : List Char → PyVal
  | l : List PyVal → PyVal

/-- The dtype value built by `_loadOffsets`: either the scalar type string
or the list of `(fieldName, fieldType)` pairs of a structured record. -/
inductive NpDtype where
  | scalar : List Char → NpDtype
  | record : List (List Char × List Char) → NpDtype
deriving DecidableEq

/-- `repr` of a JSON-decoded value, used for elements of a list by
`str` of the list. -/
def pyReprInner : PyVal → List Char
  | .s v => '\'' :: v ++ ['\'']
  | .l xs =>
    '[' :: (List.intercalate [',', ' '] (xs.attach.map (fun x => pyReprInner x.1))) ++ [']']
termination_by v => sizeOf v
decreasing_by
  have h := List.sizeOf_lt_of_mem x.2
  simp only [PyVal.l.sizeOf_spec]
  omega

/-- Python `str` of a JSON-decoded value: a string is itself, a list is
rendered with its elements shown by `repr`. -/
def pyStr : PyVal → List Char
  | .s v => v
  | .l xs =>
    '[' :: (List.intercalate [',', ' '] (xs.map pyReprInner)) ++ [']']

/-- One step of `for n, t in rawDtype`: unpack an element into exactly two
parts and apply `str` to each.  A two-character string unpacks into its two
characters; a two-element list unpacks into its two elements; everything
else raises `ValueError`, modelled as `none`. -/
def unpackPair : PyVal → Option (List Char × List Char)
  | .l [a, b] => some (pyStr a, pyStr b)
  | .s w =>
    match w with
    | [a, b] => some ([a], [b])
    | _ => none
  | _ => none

/-- The comprehension `[(str(n), str(t)) for n, t in rawDtype]` (lines 293
to 296 of the source). -/
def mapPairs : List PyVal → Option (List (List Char × List Char))
  | [] => some []
  | x :: xs =>
    match unpackPair x, mapPairs xs with
    | some p, some ps => some (p :: ps)
    | _, _ => none

/-- The dtype dispatch of `_loadOffsets` (lines 290 to 296 of the source):
`rawDtype[0] == "<"` selects the scalar branch (`str(rawDtype)`), anything
else is unpacked as a list of pairs.  An empty descriptor raises
`IndexError` at `rawDtype[0]`; a string whose first character is not `<`
fails to unpack its one-character elements.  Failures are modelled as
`none`. -/
def loadDtype : PyVal → Option NpDtype
  | .s [] => none
  | .s (c :: cs) =>
    if c = '<' then some (.scalar (c :: cs))
    else (mapPairs ((c :: cs).map (fun ch => PyVal.s [ch]))).map NpDtype.record
  | .l [] => none
  | .l (.s ['<'] :: xs) => some (.scalar (pyStr (.l (.s ['<'] :: xs))))
  | .l (x :: xs) => (mapPairs (x :: xs)).map NpDtype.record

instance {α β : Type} [DecidableEq α] [DecidableEq β] :
    DecidableEq (Except α β) := fun x y =>
  match x, y with
  | .ok a, .ok b => if h : a = b then isTrue (by rw [h]) else isFalse (by simp [h])
  | .error a, .error b => if h : a = b then isTrue (by rw [h]) else isFalse (by simp [h])
  | .ok _, .error _ => isFalse (by simp)
  | .error _, .ok _ => isFalse (by simp)

/-- Column exhibiting the strategy divergence: two entries of three
one-byte elements behind a two-byte header (offsets 2, 5, 8). -/
def exColC1 : Column := mkColumn 1 [9, 9] [[1, 2, 3], [4, 5, 6]]

/-- Column exhibiting the column-order loss of the grouped strategy: two
entries of two one-byte elements behind a one-byte header. -/
def exColC2 : Column := mkColumn 1 [7] [[3, 4], [5, 6]]

/-- Column with a single entry of two elements, exhibiting the squeeze of
the leading axis. -/
def exColC3 : Column := mkColumn 1 [8] [[1, 2]]

/-- Column with two single-element entries, exhibiting Python negative
index wrap-around in `_loadEntry`. -/
def exColC8 : Column := mkColumn 1 [9] [[4], [5]]

/-!  Theorems.  -/

/-- C1: the claim states that `readColumn` with `block_read = True` and
with `block_read = False` return bit-identical results for every valid
index array on a uniform column.  On a two-entry column with indices
`[0, 2]` the block strategy returns both entries while the grouped
strategy returns zeros for every entry after the first: the read plan is
built once with `zip`, a single-use iterator in Python 3, and is already
exhausted when the second entry is processed.  This theorem evaluates the
translated code at that failing input and shows the two results differ. -/
theorem readColumn_strategies_disagree :
    readColumn exColC1 (some [0, 2]) true = .ok (.mat [[[1], [3]], [[4], [6]]]) ∧
    readColumn exColC1 (some [0, 2]) false = .ok (.mat [[[1], [3]], [[0], [0]]]) ∧
    readColumn exColC1 (some [0, 2]) true ≠ readColumn exColC1 (some [0, 2]) false := by
  refine ⟨rfl, rfl, ?_⟩
  decide

/-- C2: the claim states that the columns of the `readColumn` result
appear in the original caller `indices` order under both strategies.
With `indices = [1, 0]` on a two-entry column, the block strategy restores
the caller order for every entry (entry 1 gives `6, 5`), but the grouped
strategy leaves entry 1 zero-filled, so its columns do not hold the data
of indices 1 and 0 of that entry (`_loadEntry` shows the entry holds
`5, 6`). -/
theorem readColumn_grouped_loses_caller_order :
    readColumn exColC2 (some [1, 0]) true = .ok (.mat [[[4], [3]], [[6], [5]]]) ∧
    readColumn exColC2 (some [1, 0]) false = .ok (.mat [[[4], [3]], [[0], [0]]]) ∧
    loadEntry exColC2 1 = .ok [[5], [6]] ∧
    readColumn exColC2 (some [1, 0]) false ≠ .ok (.mat [[[4], [3]], [[6], [5]]]) := by
  refine ⟨rfl, rfl, rfl, ?_⟩
  decide

/-- C3, counterexample: the claim states that exactly the trailing
dimension is dropped, so a column with one entry of two elements should
come back with shape `(1, 2)`, a one-row matrix.  `numpy.squeeze` drops
every axis of size one, so the result is the flat vector of the two
elements instead. -/
theorem readFull_squeezes_leading_axis :
    readColumn exColC3 none true = .ok (.vec [[1], [2]]) ∧
    readColumn exColC3 none true ≠ .ok (.mat [[[1], [2]]]) := by
  refine ⟨rfl, ?_⟩
  decide

/-- C6, counterexample: the claim states that an unreadable version marker
is classified by an error kind distinct from the version-mismatch kind.
The source raises the same exception class `VersionError` in both cases;
only `NotUnzippedError` is distinct. -/
theorem openTable_unreadable_same_error_as_mismatch :
    openTableVersionCheck none false "2" = .error .versionError ∧
    openTableVersionCheck (some "2 ") false "2" = .error .versionError ∧
    openTableVersionCheck none false "2" =
      openTableVersionCheck (some "2 ") false "2" ∧
    openTableVersionCheck none true "2" = .error .notUnzipped := by
  refine ⟨rfl, ?_, ?_, rfl⟩ <;> decide

/-- C6, amended: `__init__` classifies as follows.  When the marker cannot
be read it raises `NotUnzippedError` if a `.bz2` sibling of the version
file exists and otherwise the same `VersionError` class that a content
mismatch raises; when the marker is readable, any content other than the
exact expected string (exact string comparison) raises `VersionError`, and
only the exact string succeeds.  Unreadable-marker and mismatch failures
share one error kind. -/
theorem openTable_version_classification (z : Bool) (v e : String) :
    openTableVersionCheck none z e =
      .error (if z then .notUnzipped else .versionError) ∧
    openTableVersionCheck (some v) z e =
      (if v = e then .ok () else .error .versionError) := by
  constructor
  · cases z <;> rfl
  · by_cases h : v = e <;> simp [openTableVersionCheck, h]

/-- C7, counterexample: the claim states that `_loadOffsets` fails whenever
the offsets sequence is not non-decreasing or a line is not a valid
non-negative integer.  The source performs no monotonicity or sign
validation at all: a strictly decreasing offsets file and a negative
offset are both accepted and returned as parsed. -/
theorem loadOffsets_accepts_nonmonotonic :
    parseOffsets [['5'], ['3'], ['1']] = some [5, 3, 1] ∧
    parseOffsets [['-', '3'], ['7', '\n']] = some [-3, 7] := by
  refine ⟨?_, ?_⟩ <;> decide

/-- C8, counterexample: the claim states that every index outside
`[0, entryCount)`, negative indices included, is rejected.  On a
two-entry column, index `-2` is accepted by the numpy offsets lookup
(Python wrap-around) and returns the last entry, the same value as
index 1. -/
theorem loadEntry_accepts_negative_index :
    loadEntry exColC8 (-2) = .ok [[5]] ∧ loadEntry exColC8 1 = .ok [[5]] := by
  refine ⟨?_, ?_⟩ <;> decide

/-- C9, counterexample: the claim states that every descriptor that
JSON-decodes to a string produces the scalar variant.  The source
dispatches on `rawDtype[0] == "<"`, not on the JSON shape: the string
descriptor `">f8"` does not start with `<`, falls into the record branch
and fails when its one-character elements are unpacked as pairs, while
`"<f8"` produces the scalar variant. -/
theorem loadDtype_rejects_scalar_without_lt :
    loadDtype (.s ['>', 'f', '8']) = none ∧
    loadDtype (.s ['<', 'f', '8']) = some (.scalar ['<', 'f', '8']) := by
  refine ⟨rfl, rfl⟩

/-- The offsets list of a well-formed column has one entry per data entry
plus one. -/
theorem mkOffsets_length (start : Nat) (entries : List (List Nat)) :
    (mkOffsets start entries).length = entries.length + 1 := by
  induction entries generalizing start with
  | nil => rfl
  | cons e es ih => simp [mkOffsets, ih]

/-- The offsets list of a well-formed column starts with the header
length. -/
theorem mkOffsets_head (start : Nat) (entries : List (List Nat)) :
    ∃ t, mkOffsets start entries = start :: t := by
  cases entries <;> simp [mkOffsets]

/-- Unfolding of successive differences on a two-element head. -/
theorem npDiff_cons_cons (a b : Nat) (t : List Nat) :
    npDiff (a :: b :: t) = ((b : Int) - (a : Int)) :: npDiff (b :: t) := rfl

/-- The successive differences of the offsets of a well-formed column are
exactly the entry byte lengths. -/
theorem npDiff_mkOffsets (start : Nat) (entries : List (List Nat)) :
    npDiff (mkOffsets start entries) =
      entries.map (fun e => (e.length : Int)) := by
  induction entries generalizing start with
  | nil => rfl
  | cons e es ih =>
    obtain ⟨t, ht⟩ := mkOffsets_head (start + e.length) es
    show npDiff (start :: mkOffsets (start + e.length) es) = _
    rw [ht, npDiff_cons_cons, ← ht, ih]
    simp only [List.map_cons, List.cons.injEq]
    refine ⟨by push_cast; ring, by trivial⟩

/-- A list whose members are all equal has at most one distinct value. -/
theorem dedup_length_le_one {l : List Int} (c : Int) (h : ∀ a ∈ l, a = c) :
    ¬ 1 < l.dedup.length := by
  intro hlt
  match hd : l.dedup with
  | [] => rw [hd] at hlt; simp at hlt
  | [_] => rw [hd] at hlt; simp at hlt
  | x :: y :: t =>
    have hnd := l.nodup_dedup
    rw [hd] at hnd
    have hxy : x ≠ y := by
      simp only [List.nodup_cons, List.mem_cons] at hnd
      exact fun hc => hnd.1 (Or.inl hc)
    have hx : x = c := h x (List.mem_dedup.mp (by rw [hd]; simp))
    have hy : y = c := h y (List.mem_dedup.mp (by rw [hd]; simp))
    exact hxy (hx.trans hy.symm)

/-- A list with two different members has more than one distinct value. -/
theorem one_lt_dedup_length {l : List Int} {a b : Int} (ha : a ∈ l)
    (hb : b ∈ l) (hab : a ≠ b) : 1 < l.dedup.length := by
  have ha' : a ∈ l.dedup := List.mem_dedup.mpr ha
  have hb' : b ∈ l.dedup := List.mem_dedup.mpr hb
  match hd : l.dedup with
  | [] => rw [hd] at ha'; simp at ha'
  | [x] =>
    rw [hd] at ha' hb'
    simp only [List.mem_singleton] at ha' hb'
    exact absurd (ha'.trans hb'.symm) hab
  | x :: y :: t => simp

/-- Chunking the empty list gives the empty list for any fuel. -/
theorem chunksAux_nil {α : Type} (k fuel : Nat) :
    chunksAux k fuel ([] : List α) = [] := by
  cases fuel <;> rfl

/-- Unfolding of one chunking step. -/
theorem chunksAux_cons_succ {α : Type} (k fuel : Nat) (a : α) (l : List α) :
    chunksAux k (fuel + 1) (a :: l) =
      (a :: l).take k :: chunksAux k fuel ((a :: l).drop k) := rfl

/-- Chunking the concatenation of uniform chunks recovers them, for any
sufficient fuel. -/
theorem chunksAux_flatten {α : Type} (k : Nat) (hk : 0 < k)
    (L : List (List α)) : ∀ (fuel : Nat), (∀ x ∈ L, x.length = k) →
      L.flatten.length ≤ fuel → chunksAux k fuel L.flatten = L := by
  induction L with
  | nil => intro fuel _ _; exact chunksAux_nil k fuel
  | cons x L ih =>
    intro fuel h hle
    have hx : x.length = k := h x (by simp)
    match x, hx with
    | [], hx => rw [List.length_nil] at hx; omega
    | a :: xs, hx =>
      rw [List.flatten_cons] at hle ⊢
      rw [List.length_append] at hle
      match fuel with
      | 0 => omega
      | fuel + 1 =>
        rw [List.cons_append, chunksAux_cons_succ, ← List.cons_append,
          List.take_left' hx, List.drop_left' hx,
          ih fuel (fun y hy => h y (by simp [hy])) (by omega)]

/-- Chunking the concatenation of uniform chunks recovers them. -/
theorem chunks_flatten {α : Type} {k : Nat} (hk : 0 < k)
    (L : List (List α)) (h : ∀ x ∈ L, x.length = k) :
    chunks k L.flatten = L :=
  chunksAux_flatten k hk L L.flatten.length h le_rfl

/-- Length of the concatenation of uniform chunks. -/
theorem flatten_length_uniform {α : Type} (L : List (List α)) (k : Nat)
    (h : ∀ x ∈ L, x.length = k) : L.flatten.length = L.length * k := by
  induction L with
  | nil => simp
  | cons x t ih =>
    rw [List.flatten_cons, List.length_append, h x (by simp),
      ih (fun y hy => h y (by simp [hy])), List.length_cons, Nat.succ_mul]
    omega

/-- Flattening once then again equals mapping the inner flatten first. -/
theorem flatten_map_flatten {α : Type} (L : List (List (List α))) :
    (L.map List.flatten).flatten = L.flatten.flatten := by
  induction L with
  | nil => rfl
  | cons x t ih => simp [List.flatten_cons, ih, List.flatten_append]

/-- `npOffset` at a natural index is a plain bounds-checked lookup. -/
theorem npOffset_ofNat (l : List Nat) (j : Nat) :
    npOffset l (j : Int) =
      if j < l.length then .ok (l.getD j 0) else .error .indexError := by
  unfold npOffset
  by_cases hj : j < l.length
  · rw [if_pos (by omega : 0 ≤ (j : Int) ∧ (j : Int) < (l.length : Int)),
      if_pos hj]
    simp
  · rw [if_neg (by omega : ¬ (0 ≤ (j : Int) ∧ (j : Int) < (l.length : Int))),
      if_neg (by omega : ¬ (-(l.length : Int) ≤ (j : Int) ∧ (j : Int) < 0)),
      if_neg hj]

/-- `npOffset` at an in-range negative index wraps around. -/
theorem npOffset_neg (l : List Nat) (k : Int) (h1 : -(l.length : Int) ≤ k)
    (h2 : k < 0) : npOffset l k = npOffset l (k + l.length) := by
  unfold npOffset
  rw [if_neg (by omega : ¬ (0 ≤ k ∧ k < (l.length : Int))),
    if_pos (⟨h1, h2⟩ : -(l.length : Int) ≤ k ∧ k < 0),
    if_pos (by omega : 0 ≤ k + l.length ∧ k + l.length < (l.length : Int))]

/-- A read of `n` bytes that stays inside the file returns exactly the
next `n` bytes. -/
theorem Handle.read_exact (file : List Nat) (p n : Nat)
    (h : p + n ≤ file.length) :
    Handle.read ⟨file, p⟩ (n : Int) = ((file.drop p).take n, ⟨file, p + n⟩) := by
  simp only [Handle.read, Int.toNat_natCast]
  rw [if_neg (by omega : ¬ ((n : Int) < 0)), Nat.min_eq_left (by omega)]

/-- Value of the offsets list of a well-formed column at position `j`: the
header length plus the total size of the first `j` entries. -/
theorem mkOffsets_getD (start : Nat) (entries : List (List Nat)) (j : Nat)
    (hj : j ≤ entries.length) :
    (mkOffsets start entries).getD j 0 =
      start + ((entries.take j).map List.length).sum := by
  induction entries generalizing start j with
  | nil =>
    match j with
    | 0 => simp [mkOffsets]
    | j + 1 => simp at hj
  | cons e es ih =>
    match j with
    | 0 => simp [mkOffsets]
    | j + 1 =>
      show (start :: mkOffsets (start + e.length) es).getD (j + 1) 0 = _
      rw [List.getD_cons_succ, ih (start + e.length) j (by simpa using hj)]
      simp only [List.take_succ_cons, List.map_cons, List.sum_cons]
      omega

/-- The total size of the first `j` entries is at most the total size of
all entries. -/
theorem take_map_sum_le (entries : List (List Nat)) (j : Nat) :
    ((entries.take j).map List.length).sum ≤ (entries.map List.length).sum := by
  conv_rhs => rw [← List.take_append_drop j entries]
  rw [List.map_append, List.sum_append]
  omega

/-- Extending a prefix sum of entry sizes by one entry. -/
theorem take_map_sum_succ (entries : List (List Nat)) (j : Nat)
    (hj : j < entries.length) :
    ((entries.take (j + 1)).map List.length).sum =
      ((entries.take j).map List.length).sum + (entries.getD j []).length := by
  rw [List.take_succ, List.map_append, List.sum_append,
    List.getElem?_eq_getElem hj]
  simp [List.getD, List.getElem?_eq_getElem hj]

/-- Dropping the bytes of the first `j` entries from the concatenated data
leaves the concatenation of the remaining entries. -/
theorem flatten_drop_prefix (entries : List (List Nat)) (j : Nat) :
    entries.flatten.drop (((entries.take j).map List.length).sum) =
      (entries.drop j).flatten := by
  induction entries generalizing j with
  | nil => simp
  | cons e es ih =>
    match j with
    | 0 => simp
    | j + 1 =>
      rw [List.take_succ_cons, List.map_cons, List.sum_cons, List.flatten_cons,
        List.drop_append, ih j, List.drop_succ_cons]

/-- Evaluation of `_loadEntry` at an in-range natural index of a
well-formed column: the byte range `[offsets[j], offsets[j + 1])` is read
and decoded under the cached dtype into the elements of entry `j`. -/
theorem loadEntry_mkColumn_nat (ts : Nat) (header : List Nat)
    (entries : List (List Nat)) (j : Nat) (hts : 0 < ts)
    (hj : j < entries.length) (hdvd : ts ∣ (entries.getD j []).length) :
    loadEntry (mkColumn ts header entries) (j : Int) =
      .ok (chunks ts (entries.getD j [])) := by
  have hlen := mkOffsets_length header.length entries
  have h1 : npOffset (mkOffsets header.length entries) ((j : Int) + 1) =
      .ok (header.length + ((entries.take (j + 1)).map List.length).sum) := by
    have hc : ((j : Int) + 1) = ((j + 1 : Nat) : Int) := by push_cast; ring
    rw [hc, npOffset_ofNat, if_pos (by omega), mkOffsets_getD _ _ _ (by omega)]
  have h0 : npOffset (mkOffsets header.length entries) (j : Int) =
      .ok (header.length + ((entries.take j).map List.length).sum) := by
    rw [npOffset_ofNat, if_pos (by omega), mkOffsets_getD _ _ _ (by omega)]
  have hS := take_map_sum_succ entries j hj
  have harg : ((header.length + ((entries.take (j + 1)).map List.length).sum : Nat) : Int) -
      ((header.length + ((entries.take j).map List.length).sum : Nat) : Int) =
      (((entries.getD j []).length : Nat) : Int) := by
    rw [hS]; push_cast; ring
  have hread := Handle.read_exact (header ++ entries.flatten)
    (header.length + ((entries.take j).map List.length).sum)
    (entries.getD j []).length
    (by
      rw [List.length_append, List.length_flatten]
      have := take_map_sum_le entries (j + 1)
      omega)
  have hbytes : ((header ++ entries.flatten).drop
      (header.length + ((entries.take j).map List.length).sum)).take
      (entries.getD j []).length = entries.getD j [] := by
    rw [List.drop_append, flatten_drop_prefix, List.drop_eq_getElem_cons hj,
      List.flatten_cons,
      List.take_left' (by rw [List.getD_eq_getElem entries [] hj])]
    exact (List.getD_eq_getElem entries [] hj).symm
  have hfrom : frombuffer ts (entries.getD j []) =
      some (chunks ts (entries.getD j [])) := by
    obtain ⟨m, hm⟩ := hdvd
    unfold frombuffer
    rw [if_pos ⟨by omega, by rw [hm]; exact Nat.mul_mod_right ts m⟩]
  unfold loadEntry mkColumn
  rw [h1, h0]
  dsimp only
  rw [harg, hread]
  dsimp only
  rw [hbytes, hfrom]

/-- A read with a negative count returns the rest of the file. -/
theorem Handle.read_neg (file : List Nat) (p : Nat) (n : Int) (hn : n < 0) :
    (Handle.read ⟨file, p⟩ n).1 = file.drop p := by
  simp only [Handle.read]
  rw [if_pos hn]
  exact List.take_of_length_le (by rw [List.length_drop])

/-- Evaluation of the full read (`indices = None`) on a well-formed
uniform column of `rows.length` entries, each a row of `c` elements of
`ts` bytes: the bytes after the header decode into exactly `rows`, and the
result is `rows` squeezed. -/
theorem readColumn_full_mkColumn (ts c : Nat) (header : List Nat)
    (rows : List (List Elem)) (hts : 0 < ts) (hc : 0 < c) (hne : rows ≠ [])
    (hrow : ∀ r ∈ rows, r.length = c)
    (helem : ∀ r ∈ rows, ∀ e ∈ r, e.length = ts) (br : Bool) :
    readColumn (mkColumn ts header (rows.map List.flatten)) none br =
      .ok (squeeze2d rows) := by
  have hent : ∀ e ∈ rows.map List.flatten, e.length = c * ts := by
    intro e he
    obtain ⟨r, hr, rfl⟩ := List.mem_map.mp he
    rw [flatten_length_uniform r ts (helem r hr), hrow r hr]
  have helemflat : ∀ x ∈ rows.flatten, x.length = ts := by
    intro x hx
    obtain ⟨r, hr, hxr⟩ := List.mem_flatten.mp hx
    exact helem r hr x hxr
  have hn0 : rows.length ≠ 0 := by
    cases rows with
    | nil => exact absurd rfl hne
    | cons a l => simp
  have hflatlen : rows.flatten.length = rows.length * c :=
    flatten_length_uniform rows c hrow
  obtain ⟨t, ht⟩ := mkOffsets_head header.length (rows.map List.flatten)
  unfold readColumn mkColumn
  dsimp only
  rw [ht]
  dsimp only
  have hsizes : npDiff (header.length :: t) =
      (rows.map List.flatten).map (fun e => (e.length : Int)) := by
    rw [← ht, npDiff_mkOffsets]
  rw [hsizes]
  have hall : ∀ a ∈ (rows.map List.flatten).map (fun e => (e.length : Int)),
      a = ((c * ts : Nat) : Int) := by
    intro a ha
    obtain ⟨e, he, rfl⟩ := List.mem_map.mp ha
    rw [hent e he]
  rw [if_neg (dedup_length_le_one _ hall)]
  have hrd : (Handle.read ⟨header ++ (rows.map List.flatten).flatten,
      header.length⟩ (-1)).1 = (rows.map List.flatten).flatten := by
    rw [Handle.read_neg _ _ _ (by norm_num), List.drop_left]
  rw [hrd]
  have hfb : frombuffer ts ((rows.map List.flatten).flatten) =
      some rows.flatten := by
    rw [flatten_map_flatten]
    unfold frombuffer
    rw [if_pos ⟨by omega, by
        rw [flatten_length_uniform rows.flatten ts helemflat]
        exact Nat.mul_mod_left _ _⟩,
      chunks_flatten hts _ helemflat]
  rw [hfb]
  dsimp only
  rw [if_neg (by
    rw [List.length_map, List.length_map, hflatlen]
    push_neg
    exact ⟨hn0, Nat.mul_ne_zero hn0 (by omega), Nat.mul_mod_right _ _⟩)]
  rw [List.length_map, List.length_map, hflatlen,
    Nat.mul_div_cancel_left c (Nat.pos_of_ne_zero hn0),
    chunks_flatten hc rows hrow]

/-- Squeezing a one-by-one array gives a scalar. -/
theorem squeeze2d_scalar (e : Elem) : squeeze2d [[e]] = .scalar e := rfl

/-- Squeezing a single row of more (or fewer) than one element drops the
leading axis. -/
theorem squeeze2d_single_row (row : List Elem) (h : row.length ≠ 1) :
    squeeze2d [row] = .vec row := by
  match row, h with
  | [], _ => rfl
  | [a], h => exact absurd rfl h
  | _ :: _ :: _, _ => rfl

/-- Squeezing a single column of at least two rows drops the trailing
axis. -/
theorem squeeze2d_single_col (m : List (List Elem)) (hlen : 2 ≤ m.length)
    (h : ∀ r ∈ m, r.length = 1) :
    squeeze2d m = .vec (m.map (fun r => r.headD [])) := by
  match m with
  | [] => simp at hlen
  | [a] => simp at hlen
  | a :: b :: t =>
    show (if (a :: b :: t) ≠ [] ∧ (a :: b :: t).all (fun r => r.length = 1) then
        NpResult.vec ((a :: b :: t).map (fun r => r.headD []))
      else NpResult.mat (a :: b :: t)) = _
    rw [if_pos ⟨by simp, by
      rw [List.all_eq_true]
      intro r hr
      exact decide_eq_true (h r hr)⟩]

/-- An array with at least two rows, one of which does not have exactly
one element, is not squeezed. -/
theorem squeeze2d_mat (m : List (List Elem)) (hlen : 2 ≤ m.length)
    (r0 : List Elem) (hr0 : r0 ∈ m) (h : r0.length ≠ 1) :
    squeeze2d m = .mat m := by
  match m with
  | [] => simp at hlen
  | [a] => simp at hlen
  | a :: b :: t =>
    show (if (a :: b :: t) ≠ [] ∧ (a :: b :: t).all (fun r => r.length = 1) then
        NpResult.vec ((a :: b :: t).map (fun r => r.headD []))
      else NpResult.mat (a :: b :: t)) = _
    rw [if_neg (fun hc => h (of_decide_eq_true (List.all_eq_true.mp hc.2 r0 hr0)))]

/-- A `getD` lookup at an in-range position is a member of the list. -/
theorem getD_mem_of_lt {α : Type} (l : List α) (j : Nat) (d : α)
    (h : j < l.length) : l.getD j d ∈ l := by
  rw [List.getD_eq_getElem l d h]
  exact List.getElem_mem h

/-- `npOffset` at an in-range negative index succeeds with the wrapped
lookup. -/
theorem npOffset_neg_ok (l : List Nat) (i : Int) (h1 : -(l.length : Int) ≤ i)
    (h2 : i < 0) : npOffset l i = .ok (l.getD (i + l.length).toNat 0) := by
  unfold npOffset
  rw [if_neg (by omega), if_pos ⟨h1, h2⟩]

/-- `npOffset` outside the Python index range fails. -/
theorem npOffset_outside (l : List Nat) (i : Int)
    (h : i < -(l.length : Int) ∨ (l.length : Int) ≤ i) :
    npOffset l i = .error .indexError := by
  unfold npOffset
  rw [if_neg (by omega), if_neg (by omega)]

/-- `_loadEntry` fails with the numpy `IndexError` exactly when one of its
two offsets lookups is outside the Python index range. -/
theorem loadEntry_indexError (col : Column) (k : Int)
    (hk : k < -(col.offsets.length : Int) ∨ (col.offsets.length : Int) ≤ k + 1) :
    loadEntry col k = .error .indexError := by
  unfold loadEntry
  rcases hk with hk | hk
  · by_cases hk1 : k + 1 < -(col.offsets.length : Int)
    · rw [npOffset_outside _ _ (Or.inl hk1)]
    · have hk1' : k + 1 = -(col.offsets.length : Int) := by omega
      by_cases hlen0 : col.offsets.length = 0
      · rw [npOffset_outside _ _ (Or.inr (by omega))]
      · rw [npOffset_neg_ok _ _ (by omega) (by omega)]
        dsimp only
        rw [npOffset_outside _ _ (Or.inl hk)]
  · rw [npOffset_outside _ _ (Or.inr hk)]

/-- For an in-range negative index, `_loadEntry` computes the same value
as at the index shifted by the offsets length: both lookups wrap. -/
theorem loadEntry_neg_shift (col : Column) (k : Int)
    (h1 : -(col.offsets.length : Int) ≤ k) (h2 : k ≤ -2) :
    loadEntry col k = loadEntry col (k + col.offsets.length) := by
  unfold loadEntry
  rw [npOffset_neg col.offsets (k + 1) (by omega) (by omega),
    npOffset_neg col.offsets k h1 (by omega),
    show k + 1 + (col.offsets.length : Int) =
      k + (col.offsets.length : Int) + 1 from by ring]

/-- `_loadEntry` at index `-1` of a well-formed column: `offsets[0]` and
`offsets[-1]` delimit an empty (or backwards) range, the read returns no
bytes, and the decode succeeds with an empty array. -/
theorem loadEntry_neg_one (ts : Nat) (header : List Nat)
    (entries : List (List Nat)) (hts : 0 < ts) :
    loadEntry (mkColumn ts header entries) (-1) = .ok [] := by
  have hlen := mkOffsets_length header.length entries
  have h1 : npOffset (mkOffsets header.length entries) ((-1) + 1) =
      .ok header.length := by
    rw [show ((-1 : Int) + 1) = ((0 : Nat) : Int) from by norm_num,
      npOffset_ofNat, if_pos (by omega), mkOffsets_getD _ _ 0 (by omega)]
    simp
  have h2 : npOffset (mkOffsets header.length entries) (-1) =
      .ok (header.length + (entries.map List.length).sum) := by
    rw [npOffset_neg _ _ (by omega) (by omega),
      show (-1 : Int) + ((mkOffsets header.length entries).length : Int) =
        ((entries.length : Nat) : Int) from by rw [hlen]; push_cast; ring,
      npOffset_ofNat, if_pos (by omega),
      mkOffsets_getD _ _ entries.length (le_refl _), List.take_length]
  have hlenf : (header ++ entries.flatten).length =
      header.length + (entries.map List.length).sum := by
    rw [List.length_append, List.length_flatten]
  have hbytes : (Handle.read
      ⟨header ++ entries.flatten,
        header.length + (entries.map List.length).sum⟩
      ((header.length : Int) -
        ((header.length + (entries.map List.length).sum : Nat) : Int))).1 = [] := by
    by_cases hsum : (entries.map List.length).sum = 0
    · rw [show ((header.length : Int) -
          ((header.length + (entries.map List.length).sum : Nat) : Int)) =
          ((0 : Nat) : Int) from by omega,
        Handle.read_exact _ _ _ (by omega)]
      simp
    · rw [Handle.read_neg _ _ _ (by omega),
        List.drop_eq_nil_of_le (by omega)]
  unfold loadEntry mkColumn
  rw [h1]
  dsimp only
  rw [h2]
  dsimp only
  rw [hbytes]
  unfold frombuffer
  rw [if_pos ⟨by omega, by simp⟩]
  rfl

/-- C3, amended: on a well-formed uniform column of `n` entries of `c`
elements each, the full read returns the entry matrix with every axis of
size one removed (not only the trailing one): a scalar when `n = 1` and
`c = 1`, the single row when `n = 1` and `c ≠ 1`, the flat column when
`n ≥ 2` and `c = 1`, and the unsqueezed `(n, c)` matrix otherwise. -/
theorem readFull_shape_squeeze_all (ts c : Nat) (header : List Nat)
    (rows : List (List Elem)) (hts : 0 < ts) (hc : 0 < c) (hne : rows ≠ [])
    (hrow : ∀ r ∈ rows, r.length = c)
    (helem : ∀ r ∈ rows, ∀ e ∈ r, e.length = ts) (br : Bool) :
    (rows.length = 1 → c = 1 →
      readColumn (mkColumn ts header (rows.map List.flatten)) none br =
        .ok (.scalar ((rows.headD []).headD []))) ∧
    (rows.length = 1 → c ≠ 1 →
      readColumn (mkColumn ts header (rows.map List.flatten)) none br =
        .ok (.vec (rows.headD []))) ∧
    (2 ≤ rows.length → c = 1 →
      readColumn (mkColumn ts header (rows.map List.flatten)) none br =
        .ok (.vec (rows.map (fun r => r.headD [])))) ∧
    (2 ≤ rows.length → c ≠ 1 →
      readColumn (mkColumn ts header (rows.map List.flatten)) none br =
        .ok (.mat rows)) := by
  have hev := readColumn_full_mkColumn ts c header rows hts hc hne hrow helem br
  refine ⟨?_, ?_, ?_, ?_⟩
  · intro h1 hc1
    obtain ⟨r, hr⟩ := List.length_eq_one.mp h1
    subst hr
    have : r.length = 1 := hc1 ▸ hrow r (by simp)
    obtain ⟨e, he⟩ := List.length_eq_one.mp this
    subst he
    rw [hev]
    rfl
  · intro h1 hc1
    obtain ⟨r, hr⟩ := List.length_eq_one.mp h1
    subst hr
    rw [hev, squeeze2d_single_row r (by rw [hrow r (by simp)]; exact hc1)]
    rfl
  · intro h2 hc1
    rw [hev, squeeze2d_single_col rows h2 (fun r hr => hc1 ▸ hrow r hr)]
  · intro h2 hc1
    match rows, h2, hrow with
    | a :: t, h2, hrow =>
      rw [hev, squeeze2d_mat (a :: t) h2 a (by simp)
        (by rw [hrow a (by simp)]; exact hc1)]

/-- C4: on a well-formed uniform column, the full read decodes the data
bytes into the matrix of entry rows (then squeezed), and `_loadEntry` at
every in-range row index decodes the byte range
`[offsets[j], offsets[j + 1])` under the cached dtype into exactly row `j`
of that matrix. -/
theorem loadEntry_matches_readFull (ts c : Nat) (header : List Nat)
    (rows : List (List Elem)) (hts : 0 < ts) (hc : 0 < c) (hne : rows ≠ [])
    (hrow : ∀ r ∈ rows, r.length = c)
    (helem : ∀ r ∈ rows, ∀ e ∈ r, e.length = ts) (br : Bool) :
    readColumn (mkColumn ts header (rows.map List.flatten)) none br =
      .ok (squeeze2d rows) ∧
    ∀ j : Nat, j < rows.length →
      loadEntry (mkColumn ts header (rows.map List.flatten)) (j : Int) =
        .ok (rows.getD j []) := by
  refine ⟨readColumn_full_mkColumn ts c header rows hts hc hne hrow helem br, ?_⟩
  intro j hj
  have hmem : rows.getD j [] ∈ rows := getD_mem_of_lt rows j [] hj
  have hjm : j < (rows.map List.flatten).length := by simpa using hj
  have hgd : (rows.map List.flatten).getD j [] = (rows.getD j []).flatten := by
    rw [List.getD_eq_getElem _ _ hjm, List.getElem_map,
      ← List.getD_eq_getElem rows [] hj]
  have hdvd : ts ∣ ((rows.map List.flatten).getD j []).length := by
    rw [hgd]
    exact ⟨(rows.getD j []).length, by
      rw [flatten_length_uniform _ ts (helem _ hmem)]; ring⟩
  rw [loadEntry_mkColumn_nat ts header (rows.map List.flatten) j hts hjm hdvd,
    hgd, chunks_flatten hts _ (helem _ hmem)]

/-- C5: on a well-formed column whose entries do not all have the same
byte size, `readColumn` fails with `VariableWidthError` for the full read
and for every indexed read under both strategies, while `_loadEntry`
still succeeds at every in-range row index and returns that row. -/
theorem variableWidth_raises_loadEntry_succeeds (ts : Nat) (header : List Nat)
    (entries : List (List Nat)) (hts : 0 < ts)
    (hdvd : ∀ e ∈ entries, ts ∣ e.length)
    (e₁ e₂ : List Nat) (h₁ : e₁ ∈ entries) (h₂ : e₂ ∈ entries)
    (hne : e₁.length ≠ e₂.length)
    (idx : Option (List Int)) (br : Bool) :
    readColumn (mkColumn ts header entries) idx br = .error .variableWidth ∧
    ∀ j : Nat, j < entries.length →
      loadEntry (mkColumn ts header entries) (j : Int) =
        .ok (chunks ts (entries.getD j [])) := by
  constructor
  · obtain ⟨t, ht⟩ := mkOffsets_head header.length entries
    unfold readColumn mkColumn
    dsimp only
    rw [ht]
    dsimp only
    rw [show npDiff (header.length :: t) =
        entries.map (fun e => (e.length : Int)) from by
      rw [← ht, npDiff_mkOffsets]]
    rw [if_pos (one_lt_dedup_length
      (List.mem_map_of_mem (fun e : List Nat => (e.length : Int)) h₁)
      (List.mem_map_of_mem (fun e : List Nat => (e.length : Int)) h₂)
      (by simpa using (fun hc => hne (by exact_mod_cast hc) :
        ¬ ((e₁.length : Int) = (e₂.length : Int)))))]
  · intro j hj
    exact loadEntry_mkColumn_nat ts header entries j hts hj
      (hdvd _ (getD_mem_of_lt entries j [] hj))

/-- C8, amended: `_loadEntry` follows numpy index semantics on the offsets
array, not the `[0, entryCount)` contract: it fails (with the generic
numpy `IndexError`, there is no dedicated error class) exactly when the
index falls outside `[-(entryCount + 1), entryCount)`; indices in
`[-(entryCount + 1), -2]` wrap around and return an entry, and index `-1`
returns an empty array. -/
theorem loadEntry_python_index_semantics (ts : Nat) (header : List Nat)
    (entries : List (List Nat)) (hts : 0 < ts)
    (hdvd : ∀ e ∈ entries, ts ∣ e.length) (k : Int) :
    (k < -((entries.length : Int) + 1) ∨ (entries.length : Int) ≤ k →
      loadEntry (mkColumn ts header entries) k = .error .indexError) ∧
    (-((entries.length : Int) + 1) ≤ k → k ≤ -2 →
      loadEntry (mkColumn ts header entries) k =
        .ok (chunks ts (entries.getD (k + entries.length + 1).toNat []))) ∧
    loadEntry (mkColumn ts header entries) (-1) = .ok [] ∧
    (0 ≤ k → k < (entries.length : Int) →
      loadEntry (mkColumn ts header entries) k =
        .ok (chunks ts (entries.getD k.toNat []))) := by
  have hm : ((mkColumn ts header entries).offsets.length : Int) =
      (entries.length : Int) + 1 := by
    show ((mkOffsets header.length entries).length : Int) = _
    rw [mkOffsets_length]
    push_cast
    ring
  refine ⟨?_, ?_, loadEntry_neg_one ts header entries hts, ?_⟩
  · intro hk
    exact loadEntry_indexError _ k (by omega)
  · intro hk1 hk2
    rw [loadEntry_neg_shift _ k (by omega) hk2]
    have hj : (0 : Int) ≤ k + (mkColumn ts header entries).offsets.length ∧
        k + (mkColumn ts header entries).offsets.length <
          (entries.length : Int) := by omega
    have hcast : k + ((mkColumn ts header entries).offsets.length : Int) =
        (((k + entries.length + 1).toNat : Nat) : Int) := by omega
    rw [hcast]
    exact loadEntry_mkColumn_nat ts header entries _ hts (by omega)
      (hdvd _ (getD_mem_of_lt entries _ [] (by omega)))
  · intro hk1 hk2
    rw [show k = ((k.toNat : Nat) : Int) from by omega]
    exact loadEntry_mkColumn_nat ts header entries k.toNat hts (by omega)
      (hdvd _ (getD_mem_of_lt entries k.toNat [] (by omega)))

/-- C7, amended: `_loadOffsets` parses the offsets file line by line with
`int(...)`: the read succeeds exactly when every line is an optionally
signed decimal integer (a bad line raises the generic `ValueError`; no
reader-specific error class exists), and it returns the parsed values
positionally as they appear, performing no non-negativity and no
non-decreasing validation. -/
theorem loadOffsets_parses_pointwise (lines : List (List Char)) :
    ((parseOffsets lines).isSome ↔ ∀ l ∈ lines, (parsePyInt l).isSome) ∧
    ∀ xs : List Int, parseOffsets lines = some xs →
      xs.length = lines.length ∧
      ∀ j : Nat, j < xs.length →
        parsePyInt (lines.getD j []) = some (xs.getD j 0) := by
  induction lines with
  | nil =>
    refine ⟨by simp [parseOffsets], ?_⟩
    intro xs hxs
    simp only [parseOffsets, Option.some.injEq] at hxs
    subst hxs
    exact ⟨rfl, fun j hj => by simp at hj⟩
  | cons l ls ih =>
    constructor
    · constructor
      · intro hs l' hl'
        rcases List.mem_cons.mp hl' with rfl | hl'
        · cases hp : parsePyInt l' with
          | none =>
            exfalso
            unfold parseOffsets at hs
            rw [hp] at hs
            simp at hs
          | some v => simp
        · cases hr : parseOffsets ls with
          | none =>
            exfalso
            unfold parseOffsets at hs
            rw [hr] at hs
            cases hp : parsePyInt l <;> rw [hp] at hs <;> simp at hs
          | some vs => exact ih.1.mp (by rw [hr]; rfl) l' hl'
      · intro hall
        obtain ⟨v, hv⟩ := Option.isSome_iff_exists.mp (hall l (by simp))
        obtain ⟨vs, hvs⟩ := Option.isSome_iff_exists.mp
          (ih.1.mpr (fun x hx => hall x (by simp [hx])))
        unfold parseOffsets
        rw [hv, hvs]
        rfl
    · intro xs hxs
      unfold parseOffsets at hxs
      cases hp : parsePyInt l <;> rw [hp] at hxs
      · simp at hxs
      · cases hr : parseOffsets ls <;> rw [hr] at hxs
        · simp at hxs
        · rename_i v vs
          obtain rfl : v :: vs = xs := Option.some.inj hxs
          obtain ⟨hlen, hpt⟩ := ih.2 vs hr
          refine ⟨by simp [hlen], ?_⟩
          intro j hj
          match j with
          | 0 => simpa using hp
          | j + 1 =>
            simp only [List.getD_cons_succ]
            exact hpt j (by simpa using hj)

/-- Unpacking a JSON list of `[name, type]` string pairs recovers exactly
those pairs. -/
theorem mapPairs_fields (fields : List (List Char × List Char)) :
    mapPairs (fields.map (fun p => PyVal.l [PyVal.s p.1, PyVal.s p.2])) =
      some fields := by
  induction fields with
  | nil => rfl
  | cons f fs ih =>
    rw [List.map_cons]
    unfold mapPairs
    rw [ih]
    rfl

/-- C9, amended: the dtype dispatch keys on the first element being the
string `"<"`, not on the JSON shape: a nonempty string starting with `<`
yields the scalar variant and any other string fails; a nonempty list of
`[name, type]` string pairs always yields the record variant with exactly
those fields; the empty string and the empty list both fail
(`IndexError` at `rawDtype[0]`). -/
theorem loadDtype_first_element_dispatch (c : Char) (cs : List Char)
    (f0 : List Char × List Char) (fields : List (List Char × List Char)) :
    (loadDtype (.s (c :: cs)) =
      if c = '<' then some (.scalar (c :: cs)) else none) ∧
    loadDtype (.s []) = none ∧
    loadDtype (.l []) = none ∧
    loadDtype (.l ((f0 :: fields).map
        (fun p => PyVal.l [PyVal.s p.1, PyVal.s p.2]))) =
      some (.record (f0 :: fields)) := by
  refine ⟨?_, rfl, rfl, ?_⟩
  · by_cases hc : c = '<'
    · subst hc
      simp [loadDtype]
    · rw [if_neg hc]
      show (if c = '<' then some (NpDtype.scalar (c :: cs))
        else Option.map NpDtype.record
          (mapPairs ((c :: cs).map (fun ch => PyVal.s [ch])))) = none
      rw [if_neg hc]
      rfl
  · rw [List.map_cons]
    show Option.map NpDtype.record
      (mapPairs (PyVal.l [PyVal.s f0.1, PyVal.s f0.2] ::
        fields.map (fun p => PyVal.l [PyVal.s p.1, PyVal.s p.2]))) = _
    have h := mapPairs_fields (f0 :: fields)
    rw [List.map_cons] at h
    rw [h]
    rfl

/-- Witness for the amended C3 theorem at a concrete two-by-two column:
no axis has size one, so nothing is squeezed. -/
theorem readFull_shape_squeeze_all_witness :
    readColumn (mkColumn 1 [5] (List.map List.flatten [[[1], [2]], [[3], [4]]]))
      none true = .ok (.mat [[[1], [2]], [[3], [4]]]) := by
  have h := (readFull_shape_squeeze_all 1 2 [5] [[[1], [2]], [[3], [4]]]
    (by decide) (by decide) (by decide) (by decide) (by decide) true).2.2.2
  exact h (by decide) (by decide)

/-- Witness for the C4 theorem at a concrete column: entry 1 of a
two-entry column with two one-byte elements per entry. -/
theorem loadEntry_matches_readFull_witness :
    loadEntry (mkColumn 1 [6] (List.map List.flatten [[[7], [8]], [[9], [10]]]))
      ((1 : Nat) : Int) = .ok [[9], [10]] := by
  have h := (loadEntry_matches_readFull 1 2 [6] [[[7], [8]], [[9], [10]]]
    (by decide) (by decide) (by decide) (by decide) (by decide) true).2 1
    (by decide)
  rw [h]
  decide

/-- Witness for the C5 theorem at a concrete variable-width column: the
two entries have sizes 1 and 2, the column read fails, the row read
succeeds. -/
theorem variableWidth_raises_loadEntry_succeeds_witness :
    readColumn (mkColumn 1 [9] [[1], [2, 3]]) none true =
      .error .variableWidth ∧
    loadEntry (mkColumn 1 [9] [[1], [2, 3]]) ((1 : Nat) : Int) =
      .ok [[2], [3]] := by
  have h := variableWidth_raises_loadEntry_succeeds 1 [9] [[1], [2, 3]]
    (by decide) (by decide) [1] [2, 3] (by decide) (by decide) (by decide)
    none true
  refine ⟨h.1, ?_⟩
  rw [h.2 1 (by decide)]
  decide

/-- Witness for the amended C7 theorem at a concrete two-line offsets
file. -/
theorem loadOffsets_parses_pointwise_witness :
    parsePyInt ['4'] = some 4 := by
  have h := ((loadOffsets_parses_pointwise [['7'], ['4']]).2 [7, 4]
    (by decide)).2 1 (by decide)
  rw [show (([['7'], ['4']] : List (List Char)).getD 1 []) = ['4'] from rfl,
    show (([7, 4] : List Int).getD 1 0) = 4 from rfl] at h
  exact h

/-- Witness for the amended C8 theorem: index `-2` of a two-entry column
wraps around to the last entry. -/
theorem loadEntry_python_index_semantics_witness :
    loadEntry (mkColumn 1 [8] [[11], [12]]) (-2) = .ok [[12]] := by
  have h := (loadEntry_python_index_semantics 1 [8] [[11], [12]]
    (by decide) (by decide) (-2)).2.1 (by decide) (by decide)
  rw [h]
  decide

/-- Witness for the amended C9 theorem at a concrete one-field record
descriptor. -/
theorem loadDtype_first_element_dispatch_witness :
    loadDtype (.l [PyVal.l [PyVal.s ['a'], PyVal.s ['<', 'i', '8']]]) =
      some (.record [(['a'], ['<', 'i', '8'])]) := by
  have h := (loadDtype_first_element_dispatch 'x' []
    (['a'], ['<', 'i', '8']) []).2.2.2
  exact h

/-- C10: with `indices = None` the result of `readColumn` does not depend
on the `block_read` argument: the strategy flag is consulted only inside
the indexed branch, so the two full reads are one and the same
computation. -/
theorem readColumn_full_ignores_block_read (col : Column) (b₁ b₂ : Bool) :
    readColumn col none b₁ = readColumn col none b₂ := by
  unfold readColumn
  rfl

end Tablereader
